import Mathlib

set_option maxRecDepth 16384

/-!
Verification of the CIDR fixture-generation engine (a-sit-plus/cidre,
directory `python-testgen/`).

The Python sources are shallowly embedded below:
  * `gen_overlongs.py`  — 129-bit wide-integer bitwise oracle and its
    fixture builder;
  * `gen_merge_cases.py` — the merge oracle `mergeable_and_supernet`
    built on the stdlib `ipaddress.collapse_addresses`, plus the random
    merge-case generators;
  * `gen_containment.py` — bounded address sampling
    (`derive_boundary_addresses`, `sample_addresses_for_network`) and
    `bounded_child`;
  * `gen_properties.py` — `build_suite` producing `test_networks` and
    `adjacency_cases`.

Modelling conventions:
  * Python arbitrary-precision non-negative integers become `ℕ`; the one
    place a negative value matters (a shift amount validated by
    `0 <= s <= 128`) uses `ℤ`.
  * Randomness (`random.seed/random/getrandbits/_randbelow`) is modelled
    by an abstract deterministic state machine `RNG σ` threaded
    explicitly, exactly as CPython threads its global Mersenne-Twister
    state.  `random.choice`, `random.randrange`, `random.choices` and
    `random.shuffle` are derived from these primitives the way CPython
    derives them.
  * Byte strings (`int.to_bytes(..).hex()`) become big-endian byte
    lists `List ℕ`; dotted-quad / hex address strings become the
    `(address, prefixlen)` numbers that determine them (the string
    renderings are injective on those numbers within one family).
-/

/-! ### Elementary bit-level helpers

Python's `int.bit_length` and `ipaddress._count_righthand_zero_bits`,
written with structural fuel so that the kernel can evaluate them.  For
`n ≥ 1` the fuel `n` is always sufficient: each step halves `n`.
-/

/-- Fueled core of `int.bit_length`: number of binary digits of `n`.
`bitLenF f n` agrees with Python's `n.bit_length()` whenever `n ≤ f`. -/
def bitLenF : ℕ → ℕ → ℕ
  | 0, _ => 0
  | f + 1, n => if n = 0 then 0 else bitLenF f (n / 2) + 1

/-- Python's `n.bit_length()` for `n : ℕ`. -/
def bit_length (n : ℕ) : ℕ := bitLenF n n

/-- Fueled count of trailing (righthand) zero bits of `n` (meaningful for
`n ≥ 1`; `tzF f n` is exact whenever `1 ≤ n ≤ f`). -/
def tzF : ℕ → ℕ → ℕ
  | 0, _ => 0
  | f + 1, n => if n % 2 = 1 then 0 else tzF f (n / 2) + 1

/-- `ipaddress._count_righthand_zero_bits(number, bits)`.  For
`number = 0` Python returns `bits`; otherwise
`min(bits, (~number & (number-1)).bit_length())`, and for `number ≥ 1`
the value `(~number & (number-1))` equals `2^t - 1` where `t` is the
number of trailing zero bits of `number`, so its bit length is exactly
that trailing-zero count. -/
def countRighthandZeroBits (n bits : ℕ) : ℕ :=
  if n = 0 then bits else min bits (tzF n n)

/-- Big-endian byte list of `n` with exactly `len` bytes: Python's
`n.to_bytes(len, "big")` (the callers below always satisfy
`n < 2^(8*len)`, which is what Python's `OverflowError` check enforces). -/
def toBytesBE : ℕ → ℕ → List ℕ
  | 0, _ => []
  | len + 1, n => toBytesBE len (n / 256) ++ [n % 256]

/-- Big-endian interpretation of a byte list (`int.from_bytes(l, "big")`),
used to state that an encoding really is the big-endian form of a value. -/
def fromBytesBE (l : List ℕ) : ℕ := l.foldl (fun acc b => acc * 256 + b) 0

/-! ### Wide-integer bitwise oracle (`gen_overlongs.py`) -/

def MAX_128 : ℕ := 2 ^ 128 - 1

def MAX_129 : ℕ := 2 ^ 129 - 1

def TWO_POW_128 : ℕ := 2 ^ 128

/-- `encode_overlong_hex(n)`: rejects out-of-range values, otherwise the
big-endian byte string of length 16 (`n < 2^128`) or 17.  The Python
function returns the hex rendering of exactly these bytes; the `n < 0`
half of its range check is vacuous over `ℕ`. -/
def encode_overlong_hex (n : ℕ) : Except String (List ℕ) :=
  if n > MAX_129 then .error "n out of range (0..2^129-1)"
  else .ok (toBytesBE (if n < TWO_POW_128 then 16 else 17) n)

/-- `op_inv(a) = (~a) & MAX_129`.  On Python integers `~a = -a - 1` and
masking with `2^129 - 1` is reduction mod `2^129`, hence the `ℤ`
computation below. -/
def op_inv (a : ℕ) : ℕ := ((-(a : ℤ) - 1) % (2 ^ 129 : ℤ)).toNat

/-- `op_and(a, b) = (a & b) & MAX_129`. -/
def op_and (a b : ℕ) : ℕ := (a &&& b) &&& MAX_129

/-- `op_or(a, b) = (a | b) & MAX_129`. -/
def op_or (a b : ℕ) : ℕ := (a ||| b) &&& MAX_129

/-- `op_xor(a, b) = (a ^ b) & MAX_129`. -/
def op_xor (a b : ℕ) : ℕ := (a ^^^ b) &&& MAX_129

/-- `op_shl(a, s)`: `ValueError` unless `0 <= s <= 128`, otherwise
`(a << s) & MAX_129`.  The shift amount is `ℤ` because Python's check
also rejects negative shifts. -/
def op_shl (a : ℕ) (s : ℤ) : Except String ℕ :=
  if 0 ≤ s ∧ s ≤ 128 then .ok ((a <<< s.toNat) &&& MAX_129)
  else .error "shift out of range (0..128)"

/-- `op_shr(a, s)`: `ValueError` unless `0 <= s <= 128`, otherwise the
logical right shift `a >> s`. -/
def op_shr (a : ℕ) (s : ℤ) : Except String ℕ :=
  if 0 ≤ s ∧ s ≤ 128 then .ok (a >>> s.toNat)
  else .error "shift out of range (0..128)"

/-- Equality of `Except` results is decidable componentwise; used to let
`decide` evaluate the fallible operations at concrete inputs. -/
instance {α β : Type} [DecidableEq α] [DecidableEq β] : DecidableEq (Except α β) := fun a b =>
  match a, b with
  | .ok x, .ok y => if h : x = y then .isTrue (by rw [h]) else .isFalse (by simp [h])
  | .error x, .error y => if h : x = y then .isTrue (by rw [h]) else .isFalse (by simp [h])
  | .ok _, .error _ => .isFalse (by simp)
  | .error _, .ok _ => .isFalse (by simp)

/-! ### Address/Network value model (`ipaddress` networks)

A Python `IPv4Network`/`IPv6Network` is determined by its version (4 or
6), the integer of its network address, and its prefix length.  The
`ipaddress` constructors guarantee `Network.Valid` below for every value
the generators manipulate. -/

structure Network where
  version : ℕ
  addr : ℕ
  prefixlen : ℕ
deriving DecidableEq, Repr

instance : Inhabited Network := ⟨⟨4, 0, 0⟩⟩

/-- Family bit width: `32 if version == 4 else 128`
(`gen_containment.py` line 170). -/
def widthOf (version : ℕ) : ℕ := if version = 4 then 32 else 128

/-- `net.num_addresses = 2^(W - prefixlen)`. -/
def Network.num_addresses (n : Network) : ℕ :=
  2 ^ (widthOf n.version - n.prefixlen)

/-- `int(net.broadcast_address)`: the last address of the block (the
`ipaddress` library defines `broadcast_address` as the top of the block
for both families). -/
def lastAddr (n : Network) : ℕ := n.addr + n.num_addresses - 1

/-- The invariant every constructed `ipaddress` network satisfies:
version tag is 4 or 6, the prefix fits the family, the address fits the
family, and the host bits are zero (strict/loose construction both end
in this canonical form). -/
def Network.Valid (n : Network) : Prop :=
  (n.version = 4 ∨ n.version = 6) ∧
    n.prefixlen ≤ widthOf n.version ∧
    n.addr < 2 ^ widthOf n.version ∧
    2 ^ (widthOf n.version - n.prefixlen) ∣ n.addr

instance (n : Network) : Decidable n.Valid := by
  unfold Network.Valid; infer_instance

/-- The data determining `net.with_prefixlen` within one family: the
string rendering is injective on `(address, prefixlen)`. -/
def netKey (n : Network) : ℕ × ℕ := (n.addr, n.prefixlen)

/-- `n1.overlaps(n2)`: the library computes it by mutual containment of
the endpoint addresses, which for same-version interval blocks
`[addr, lastAddr]` is exactly non-empty intersection; for mixed versions
`__contains__` returns `False` throughout. -/
def Network.overlaps (a b : Network) : Bool :=
  a.version = b.version ∧ max a.addr b.addr ≤ min (lastAddr a) (lastAddr b)

/-- `sup.supernet_of(base)` (same-version call sites only):
`base`'s interval is contained in `sup`'s. -/
def supernetOf (s o : Network) : Bool :=
  s.version = o.version ∧ s.addr ≤ o.addr ∧ lastAddr o ≤ lastAddr s

/-- `net.subnets(new_prefix=newp)` materialised: child `i` has address
`addr + i * 2^(W - newp)`.  The generators only call this with
`prefixlen < newp ≤ W` (Python raises `ValueError` otherwise, and every
call site below checks or guarantees the bounds first). -/
def subnetsAt (n : Network) (newp : ℕ) : List Network :=
  (List.range (2 ^ (newp - n.prefixlen))).map
    fun i => ⟨n.version, n.addr + i * 2 ^ (widthOf n.version - newp), newp⟩

/-- Mask an address down to a prefix: the `strict=False` constructor and
`supernet(new_prefix=...)` both zero the host bits this way. -/
def maskAddr (W p a : ℕ) : ℕ := a / 2 ^ (W - p) * 2 ^ (W - p)

/-- `ip_network((a, p), strict=False)`: host bits are masked away. -/
def looseNetwork (ver a p : ℕ) : Network :=
  ⟨ver, maskAddr (widthOf ver) p a, p⟩

/-- `net.supernet(new_prefix=newp)`: same family, masked address. -/
def supernetAt (n : Network) (newp : ℕ) : Network :=
  looseNetwork n.version n.addr newp

/-! ### `ipaddress.summarize_address_range` and `collapse_addresses`

`summarizeGo` is the loop of `summarize_address_range(first, last)`:

    while first <= last:
        nbits = min(count_righthand_zero_bits(first, W),
                    (last - first + 1).bit_length() - 1)
        yield (first, W - nbits)
        first += 1 << nbits

written with structural fuel `last + 1 - first`, which always dominates
the iteration count because every iteration advances `first` by at least
one. -/

def summarizeGo (W : ℕ) : ℕ → ℕ → ℕ → List (ℕ × ℕ)
  | 0, _, _ => []
  | fuel + 1, first, last =>
    if first ≤ last then
      (first,
        W - min (countRighthandZeroBits first W) (bit_length (last - first + 1) - 1)) ::
        summarizeGo W fuel
          (first + 2 ^ min (countRighthandZeroBits first W) (bit_length (last - first + 1) - 1))
          last
    else []

/-- `summarize_address_range(first, last)` over family width `W`,
as a list of `(network address, prefixlen)` pairs. -/
def summarizeRange (W first last : ℕ) : List (ℕ × ℕ) :=
  summarizeGo W (last + 1 - first) first last

/-- `collapse_pair(a, b) = list(ipaddress.collapse_addresses([a, b]))`
for two same-version networks (the merge oracle calls it only after the
family check).  `collapse_addresses` returns the minimal sorted CIDR
list covering the union of the inputs: when the two interval blocks
overlap or touch, that is the canonical greedy decomposition of the
merged span `[min first, max last]` (CIDR blocks never partially
overlap, so the union is a single interval exactly in that case);
otherwise the two blocks survive unchanged in sorted order
(`_BaseNetwork` sorts by network address, then prefix). -/
def collapse_pair (a b : Network) : List Network :=
  if max a.addr b.addr ≤ min (lastAddr a) (lastAddr b) + 1 then
    (summarizeRange (widthOf a.version) (min a.addr b.addr)
        (max (lastAddr a) (lastAddr b))).map
      fun q => ⟨a.version, q.1, q.2⟩
  else if a.addr < b.addr ∨ (a.addr = b.addr ∧ a.prefixlen ≤ b.prefixlen) then [a, b]
  else [b, a]

/-! ### The merge oracle (`gen_merge_cases.py`, `mergeable_and_supernet`) -/

/-- The reason strings `mergeable_and_supernet` can return (the Python
function returns `(False, None, reason)` with exactly these texts). -/
inductive MergeReason where
  | differentFamilies
  | differentPrefixLengths
  | cannotSupernetZero
  | doesNotCollapse
  | notOneBitShorter
  | unexpectedSubdivision
  | doesNotSplitBack
deriving DecidableEq, Repr

/-- The exact Python reason strings. -/
def reasonText : MergeReason → String
  | .differentFamilies => "different families"
  | .differentPrefixLengths => "different prefix lengths"
  | .cannotSupernetZero => "cannot supernet /0"
  | .doesNotCollapse => "does not collapse to single supernet"
  | .notOneBitShorter => "collapsed supernet is not one bit shorter"
  | .unexpectedSubdivision => "unexpected subdivision count"
  | .doesNotSplitBack => "collapsed supernet does not split back into the two inputs"

/-- Result of the oracle: `(True, sup, None)` or `(False, None, reason)`. -/
inductive MergeOut where
  | ok (sup : Network)
  | fail (r : MergeReason)
deriving DecidableEq, Repr

/-- `mergeable_and_supernet(a, b)`, check for check:
family, prefix length, the `/0` degenerate case, single-block collapse,
one-bit-shorter prefix, subdivision count, and the round-trip split-back
comparison of `with_prefixlen` string sets (modelled by `netKey`
finsets, on which the strings are injective within the family). -/
def mergeable_and_supernet (a b : Network) : MergeOut :=
  if a.version ≠ b.version then .fail .differentFamilies
  else if a.prefixlen ≠ b.prefixlen then .fail .differentPrefixLengths
  else if a.prefixlen = 0 then .fail .cannotSupernetZero
  else
    match collapse_pair a b with
    | [sup] =>
      if sup.prefixlen ≠ a.prefixlen - 1 then .fail .notOneBitShorter
      else if (subnetsAt sup a.prefixlen).length ≠ 2 then .fail .unexpectedSubdivision
      else if ((subnetsAt sup a.prefixlen).map netKey).toFinset ≠
          ([a, b].map netKey).toFinset then .fail .doesNotSplitBack
      else .ok sup
    | _ => .fail .doesNotCollapse

/-! ### Bounded address sampling (`gen_containment.py`)

Python builds a `set` of address strings and returns `sorted(set(...))`.
Membership is what the claims are about; we realise the dedup-and-order
step as an order-preserving numeric insertion sort (`sorted` in Python
orders the string renderings, which permutes but never changes the set). -/

/-- Insert into a sorted duplicate-free list, skipping duplicates. -/
def insertDedup (x : ℕ) : List ℕ → List ℕ
  | [] => [x]
  | y :: ys => if x = y then y :: ys
    else if x < y then x :: y :: ys
    else y :: insertDedup x ys

/-- `sorted(set(l))`: duplicate-free sorted version of `l`. -/
def sortedDedup (l : List ℕ) : List ℕ := l.foldr insertDedup []

/-- `derive_boundary_addresses(n)`: network address, top of block, the
two neighbours just inside (when four or more addresses exist; on the
IPv4 side the code also asks `prefixlen <= 30`), and the two neighbours
just outside when they stay within the family range.  For IPv6 the code
synthesises `last = network + num_addresses - 1`, which is the same
value `broadcast_address` has, so both branches use `lastAddr`. -/
def derive_boundary_addresses (n : Network) : List ℕ :=
  let lo := n.addr
  let hi := lastAddr n
  let maxv := 2 ^ widthOf n.version - 1
  let inner : List ℕ :=
    if n.version = 4 then
      [hi] ++ (if n.prefixlen ≤ 30 ∧ 4 ≤ n.num_addresses then [lo + 1, hi - 1] else [])
    else
      [hi] ++ (if 4 ≤ n.num_addresses then [lo + 1, hi - 1] else [])
  sortedDedup ([lo] ++ inner ++
    (if 1 ≤ lo then [lo - 1] else []) ++
    (if hi + 1 ≤ maxv then [hi + 1] else []))

/-- The strided interior walk of `sample_addresses_for_network`:

    steps = min(cap, max(0, total - 1))
    if steps > 0:
        stride = max(1, total // steps)
        for k in range(steps): yield base + min(total - 1, k * stride)
-/
def interiorWalk (n : Network) (cap : ℕ) : List ℕ :=
  let total := n.num_addresses
  let steps := min cap (total - 1)
  if 0 < steps then
    let stride := max 1 (total / steps)
    (List.range steps).map fun k => n.addr + min (total - 1) (k * stride)
  else []

/-- `sample_addresses_for_network(n, addr_steps_cap)`: boundary points,
then (for a positive cap) the strided interior walk, deduplicated and
sorted.  The cap is `ℕ` here; Python's non-positive caps all take the
boundary-only early return, which `cap = 0` covers. -/
def sample_addresses_for_network (n : Network) (cap : ℕ) : List ℕ :=
  let out := derive_boundary_addresses n
  if cap ≤ 0 then sortedDedup out
  else sortedDedup (out ++ interiorWalk n cap)

/-- `bounded_child(n, new_prefix)`: `None` when the requested prefix is
not strictly deeper or exceeds the family's `max_prefixlen`, otherwise
`next(n.subnets(new_prefix=new_prefix))` (which always exists once the
two guards have passed; the `StopIteration`/`ValueError` handler is
unreachable then). -/
def bounded_child (n : Network) (newp : ℕ) : Option Network :=
  if newp ≤ n.prefixlen then none
  else if widthOf n.version < newp then none
  else (subnetsAt n newp).head?

/-! ### Deterministic model of the `random` module

CPython's `random` module is a deterministic state machine: `seed(n)`
sets the Mersenne-Twister state, and every draw is a pure function of
that state.  We abstract it as a structure so the determinism theorem
holds for any such machine.  `random.choice(seq)` is
`seq[randbelow(len(seq))]`, `random.randrange(start, stop, step)` is
`start + step * randbelow(width)`, `random.choices` with weights
`[3, 5]` picks the first population element iff `random() * 8 < 3`, and
`random.shuffle` is the Fisher–Yates loop over `randbelow` — all as in
CPython's implementation. -/

structure RNG (σ : Type) where
  seedState : ℕ → σ
  random01 : σ → ℚ × σ
  getrandbits : ℕ → σ → ℕ × σ
  randbelow : ℕ → σ → ℕ × σ

/-- `random.choice(l)` (the default is never selected at the call sites:
CPython's `_randbelow(len(l))` is below `l.length`). -/
def rchoice {σ α : Type} [Inhabited α] (R : RNG σ) (l : List α) (s : σ) : α × σ :=
  let (i, s') := R.randbelow l.length s
  (l.getD i default, s')

/-- Run a state-threading step `count` times, concatenating the emitted
case lists in order — the shape of every `for _ in range(count)` loop in
the generators. -/
def runConcat {σ β : Type} (f : σ → List β × σ) : ℕ → σ → List β × σ
  | 0, s => ([], s)
  | k + 1, s =>
    let (xs, s₁) := f s
    let (rest, s₂) := runConcat f k s₁
    (xs ++ rest, s₂)

/-- One swap of `random.shuffle`'s Fisher–Yates loop. -/
def swapAt {α : Type} [Inhabited α] (l : List α) (i j : ℕ) : List α :=
  let xi := l.getD i default
  let xj := l.getD j default
  (l.set i xj).set j xi

/-- `random.shuffle` body: `for i in reversed(range(1, len(x))):
j = randbelow(i + 1); swap x[i], x[j]`. -/
def shuffleGo {σ α : Type} [Inhabited α] (R : RNG σ) : ℕ → List α → σ → List α × σ
  | 0, l, s => (l, s)
  | i + 1, l, s =>
    let (j, s₁) := R.randbelow (i + 2) s
    shuffleGo R i (swapAt l (i + 1) j) s₁

/-- `random.shuffle(l)`. -/
def shuffleList {σ α : Type} [Inhabited α] (R : RNG σ) (l : List α) (s : σ) : List α × σ :=
  shuffleGo R (l.length - 1) l s

/-! ### Random merge-case generation (`gen_merge_cases.py`) -/

/-- A generated merge case: the two input networks, the oracle verdict,
the expected supernet on success, and the `note` field (`make_case`
stores the supplied note, or the failure reason text when no note was
given and the pair is not mergeable). -/
structure MergeCase where
  a_cidr : Network
  b_cidr : Network
  can_merge : Bool
  expect : Option Network
  note : Option String
deriving DecidableEq, Repr

/-- `make_case(a, b, note)`. -/
def make_case (a b : Network) (note : Option String) : MergeCase :=
  match mergeable_and_supernet a b with
  | .ok sup => ⟨a, b, true, some sup, note⟩
  | .fail r => ⟨a, b, false, none,
      match note with
      | some t => some t
      | none => some (reasonText r)⟩

/-- `edge_cases()`: the fixed list of curated pairs
(addresses written as the integers of the dotted/hex literals). -/
def edge_cases : List MergeCase :=
  [ make_case ⟨4, 0xC0A80A00, 25⟩ ⟨4, 0xC0A80A80, 25⟩ (some "mergeable siblings"),
    make_case ⟨4, 0x00000000, 32⟩ ⟨4, 0x00000001, 32⟩ (some "mergeable /31 low end"),
    make_case ⟨4, 0x0A0000FE, 32⟩ ⟨4, 0x0A0000FF, 32⟩ (some "mergeable /31 high end"),
    make_case ⟨4, 0x0A000000, 25⟩ ⟨4, 0x0A000080, 26⟩ (some "adjacent, different prefix"),
    make_case ⟨4, 0x0A000000, 24⟩ ⟨4, 0x0A000080, 25⟩ (some "containment"),
    make_case ⟨4, 0xAC100000, 23⟩ ⟨4, 0xAC100100, 24⟩ (some "containment"),
    make_case ⟨4, 0xC0A80000, 24⟩ ⟨4, 0xC0A80200, 24⟩ (some "disjoint"),
    make_case ⟨6, 0x20010db8000000000000000000000000, 65⟩
      ⟨6, 0x20010db8000000008000000000000000, 65⟩ (some "mergeable siblings /64"),
    make_case ⟨6, 0x20010db8000000000000000000000000, 65⟩
      ⟨6, 0x20010db8000000008000000000000000, 66⟩ (some "adjacent, different prefix"),
    make_case ⟨6, 0x20010db8000000000000000000000000, 64⟩
      ⟨6, 0x20010db8000000000000000000000000, 65⟩ (some "containment"),
    make_case ⟨6, 0x20010db8000000000000000000000000, 64⟩
      ⟨6, 0x20010db8000100000000000000000000, 64⟩ (some "disjoint") ]

/-- `random_ipv4_network(prefix)`: an aligned start inside `10.0.0.0/16`
via `randrange(int(base[0]), int(base[-1]) + 1 - size, size)`. -/
def random_ipv4_network {σ : Type} (R : RNG σ) (p : ℕ) (s : σ) : Network × σ :=
  let size := 2 ^ (32 - p)
  let (i, s') := R.randbelow ((0x0A00FFFF + 1 - size - 0x0A000000) / size) s
  (⟨4, 0x0A000000 + i * size, p⟩, s')

/-- `random_ipv6_network(prefix)`: an aligned start inside
`2001:db8::/32`. -/
def random_ipv6_network {σ : Type} (R : RNG σ) (p : ℕ) (s : σ) : Network × σ :=
  let size := 2 ^ (128 - p)
  let base := 0x20010db8000000000000000000000000
  let (i, s') := R.randbelow ((base + 2 ^ 96 - size - base) / size) s
  (⟨6, base + i * size, p⟩, s')

/-- `make_adjacent_of_same_prefix(net)`: the right neighbour of the same
prefix when it fits the family range (Python's strict constructor raises
on overflow), else the left neighbour when that is non-negative, else
the network itself. -/
def make_adjacent_of_same_prefix (n : Network) : Network :=
  let step := n.num_addresses
  let right := lastAddr n + 1
  if right + step ≤ 2 ^ widthOf n.version then ⟨n.version, right, n.prefixlen⟩
  else if step ≤ n.addr then ⟨n.version, n.addr - step, n.prefixlen⟩
  else n

/-- `random_mergeable_pair(version)`: pick a child prefix, build a random
parent one bit up, and return the parent's first two subnets. -/
def random_mergeable_pair {σ : Type} (R : RNG σ) (version : ℕ) (s : σ) :
    (Network × Network) × σ :=
  if version = 4 then
    let (cp, s₁) := rchoice R [31, 30, 29, 28, 27, 26, 25, 24] s
    let (parent, s₂) := random_ipv4_network R (cp - 1) s₁
    let subs := subnetsAt parent cp
    ((subs.getD 0 parent, subs.getD 1 parent), s₂)
  else
    let (cp, s₁) := rchoice R [66, 65, 64] s
    let (parent, s₂) := random_ipv6_network R (cp - 1) s₁
    let subs := subnetsAt parent cp
    ((subs.getD 0 parent, subs.getD 1 parent), s₂)

/-- The `"disjoint"` retry loop of `random_nonmergeable_pair` for IPv4:
generate a candidate, accept it when it neither overlaps nor collapses
to a single block, and give up after the 11th draw (`tries > 10`). -/
def disjointLoop4 {σ : Type} (R : RNG σ) (p : ℕ) (a : Network) :
    ℕ → σ → (Network × Network) × σ
  | 0, s =>
    let (b, s') := random_ipv4_network R p s
    ((a, b), s')
  | fuel + 1, s =>
    let (b, s') := random_ipv4_network R p s
    if ¬ Network.overlaps a b ∧ (collapse_pair a b).length ≠ 1 then ((a, b), s')
    else disjointLoop4 R p a fuel s'

/-- The `"disjoint"` retry loop for IPv6. -/
def disjointLoop6 {σ : Type} (R : RNG σ) (p : ℕ) (a : Network) :
    ℕ → σ → (Network × Network) × σ
  | 0, s =>
    let (b, s') := random_ipv6_network R p s
    ((a, b), s')
  | fuel + 1, s =>
    let (b, s') := random_ipv6_network R p s
    if ¬ Network.overlaps a b ∧ (collapse_pair a b).length ≠ 1 then ((a, b), s')
    else disjointLoop6 R p a fuel s'

/-- `random_nonmergeable_pair(version)`. -/
def random_nonmergeable_pair {σ : Type} (R : RNG σ) (version : ℕ) (s : σ) :
    (Network × Network) × σ :=
  if version = 4 then
    let (p, s₁) := rchoice R [31, 30, 29, 28, 27, 26, 25, 24] s
    let (a, s₂) := random_ipv4_network R p s₁
    let (kind, s₃) := rchoice R
      ["adjacent_diff_prefix", "containment", "disjoint", "adjacent_misaligned"] s₂
    if kind = "adjacent_diff_prefix" then
      ((a, looseNetwork 4 (lastAddr a + 1) (max 0 (p - 1))), s₃)
    else if kind = "containment" then
      ((a, (subnetsAt a (min 32 (p + 1))).getD 0 a), s₃)
    else if kind = "adjacent_misaligned" then
      let neighbor := make_adjacent_of_same_prefix a
      let parent := if 0 < a.prefixlen then (collapse_pair a neighbor).getD 0 a else a
      if parent.prefixlen = a.prefixlen - 1 then
        let a' : Network := ⟨4, a.addr + 2 ^ (32 - a.prefixlen), a.prefixlen⟩
        ((a', make_adjacent_of_same_prefix a'), s₃)
      else ((a, neighbor), s₃)
    else disjointLoop4 R p a 10 s₃
  else
    let (p, s₁) := rchoice R [66, 65, 64, 63] s
    let (a, s₂) := random_ipv6_network R p s₁
    let (kind, s₃) := rchoice R
      ["adjacent_diff_prefix", "containment", "disjoint", "adjacent_misaligned"] s₂
    if kind = "adjacent_diff_prefix" then
      ((a, looseNetwork 6 (lastAddr a + 1) (max 0 (p - 1))), s₃)
    else if kind = "containment" then
      ((a, (subnetsAt a (min 128 (p + 1))).getD 0 a), s₃)
    else if kind = "adjacent_misaligned" then
      let neighbor := make_adjacent_of_same_prefix a
      let parent := if 0 < a.prefixlen then (collapse_pair a neighbor).getD 0 a else a
      if parent.prefixlen = a.prefixlen - 1 then
        let a' : Network := ⟨6, a.addr + 2 ^ (128 - a.prefixlen), a.prefixlen⟩
        ((a', make_adjacent_of_same_prefix a'), s₃)
      else ((a, neighbor), s₃)
    else disjointLoop6 R p a 10 s₃

/-- One iteration of `random_cases`: pick a version, then the weighted
kind (`random.choices` with weights `[3, 5]` picks `"mergeable"` iff
`random() * 8 < 3`), and build the case with the fixed note. -/
def randomCaseStep {σ : Type} (R : RNG σ) (s : σ) : List MergeCase × σ :=
  let (version, s₁) := rchoice R [4, 6] s
  let (r, s₂) := R.random01 s₁
  if r * 8 < 3 then
    let (ab, s₃) := random_mergeable_pair R version s₂
    ([make_case ab.1 ab.2 (some "random mergeable siblings")], s₃)
  else
    let (ab, s₃) := random_nonmergeable_pair R version s₂
    ([make_case ab.1 ab.2 (some "random non-mergeable")], s₃)

/-- `random_cases(count)`. -/
def random_cases {σ : Type} (R : RNG σ) (count : ℕ) (s : σ) : List MergeCase × σ :=
  runConcat (randomCaseStep R) count s

/-- `gen_merge_cases.main` after argument parsing: seed the RNG, then
emit `edge_cases()` followed by `random_cases(count)` — the list written
to the JSON file. -/
def mergeCaseList {σ : Type} (R : RNG σ) (seed count : ℕ) : List MergeCase :=
  edge_cases ++ (random_cases R count (R.seedState seed)).1

/-! ### Property-suite generation (`gen_properties.py`, `build_suite`) -/

def ipv4_prefixes : List ℕ := [0, 8, 16, 24, 25, 26, 27, 28, 29, 30, 31, 32]

def ipv6_prefixes : List ℕ := [0, 32, 48, 56, 60, 64, 96, 112, 126, 127, 128]

/-- `rand_net(version, prefix)`: a loose network from
`getrandbits(W)` random address bits. -/
def rand_net {σ : Type} (R : RNG σ) (version p : ℕ) (s : σ) : Network × σ :=
  let (bits, s') := R.getrandbits (widthOf version) s
  (looseNetwork version bits p, s')

/-- The deterministic seed networks: `("192.0.2.1", p)` and
`("2001:db8::1", p)` constructed loosely for every preset prefix. -/
def seedNetworks : List Network :=
  ipv4_prefixes.map (fun p => looseNetwork 4 0xC0000201 p) ++
    ipv6_prefixes.map (fun p => looseNetwork 6 0x20010db8000000000000000000000001 p)

/-- The random fill loop: each iteration draws a prefix from the preset
list and appends one random network of the requested version, so the
`while sum(...) < n` loop runs exactly `n - seeds` times. -/
def fillLoop {σ : Type} (R : RNG σ) (version : ℕ) (prefixes : List ℕ) :
    ℕ → σ → List Network × σ
  | 0, s => ([], s)
  | k + 1, s =>
    let (p, s₁) := rchoice R prefixes s
    let (n, s₂) := rand_net R version p s₁
    let (rest, s₃) := fillLoop R version prefixes k s₂
    (n :: rest, s₃)

/-- `dict.fromkeys(nets)`: deduplicate preserving the first occurrence. -/
def dedupFirstAux {α : Type} [DecidableEq α] : List α → List α → List α
  | _, [] => []
  | seen, x :: xs =>
    if x ∈ seen then dedupFirstAux seen xs else x :: dedupFirstAux (x :: seen) xs

/-- Order-preserving first-occurrence dedup. -/
def dedupFirst {α : Type} [DecidableEq α] (l : List α) : List α := dedupFirstAux [] l

/-- `broadcast_or_none(net)`: IPv4 with `prefixlen <= 30` has a directed
broadcast, everything else reports `None`. -/
def broadcast_or_none (n : Network) : Option ℕ :=
  if n.version = 4 ∧ n.prefixlen ≤ 30 then some (lastAddr n) else none

/-- `first_last_assignable(net)`: `/32`,`/128` single; `/31`,`/127` the
two host addresses; otherwise IPv4 uses `next(hosts()) = network + 1`
and `broadcast - 1`, IPv6 the whole block. -/
def first_last_assignable (n : Network) : ℕ × ℕ :=
  if n.version = 4 then
    if n.prefixlen = 32 then (n.addr, n.addr)
    else if n.prefixlen = 31 then (n.addr, n.addr + 1)
    else (n.addr + 1, lastAddr n - 1)
  else
    if n.prefixlen = 128 then (n.addr, n.addr)
    else if n.prefixlen = 127 then (n.addr, n.addr + 1)
    else (n.addr, lastAddr n)

/-- `int_to_be_hex(n)`: minimal-length big-endian bytes, `"00"` for 0. -/
def int_to_be_hex (n : ℕ) : List ℕ :=
  if n = 0 then [0] else toBytesBE ((bit_length n + 7) / 8) n

/-- One `test_networks[]` entry (strings modelled by the numbers that
determine them; `family` keeps the version tag of `"IPv4"`/`"IPv6"`). -/
structure TestNetRecord where
  family : ℕ
  cidr : ℕ × ℕ
  address : ℕ
  prefixlen : ℕ
  network_address : ℕ
  last_address : ℕ
  first_assignable : ℕ
  last_assignable : ℕ
  broadcast : Option ℕ
  num_addresses : ℕ
  size_be_hex : List ℕ
deriving DecidableEq, Repr

/-- The `test_networks` record built for one network. -/
def mkTestNetRecord (n : Network) : TestNetRecord :=
  { family := n.version
    cidr := (n.addr, n.prefixlen)
    address := n.addr
    prefixlen := n.prefixlen
    network_address := n.addr
    last_address := lastAddr n
    first_assignable := (first_last_assignable n).1
    last_assignable := (first_last_assignable n).2
    broadcast := broadcast_or_none n
    num_addresses := n.num_addresses
    size_be_hex := int_to_be_hex n.num_addresses }

/-- One `adjacency_cases[]` entry. -/
structure AdjacencyRecord where
  family : ℕ
  a_cidr : ℕ × ℕ
  b_cidr : ℕ × ℕ
  are_adjacent : Bool
  overlaps : Bool
  relation : String
deriving DecidableEq, Repr

/-- First adjacency loop: split a chosen network's parent into two
children and record the adjacent-sibling pair (skipping `/0` bases). -/
def adjLoop1Step {σ : Type} (R : RNG σ) (nets : List Network) (s : σ) :
    List AdjacencyRecord × σ :=
  let (base, s₁) := rchoice R nets s
  if base.prefixlen = 0 then ([], s₁)
  else
    let kids := subnetsAt (supernetAt base (base.prefixlen - 1)) base.prefixlen
    if 2 ≤ kids.length then
      let a := kids.getD 0 base
      let b := kids.getD 1 base
      ([⟨a.version, netKey a, netKey b, true, Network.overlaps a b, "adjacent"⟩], s₁)
    else ([], s₁)

/-- Second adjacency loop: a network against its supernet. -/
def adjLoop2Step {σ : Type} (R : RNG σ) (nets : List Network) (s : σ) :
    List AdjacencyRecord × σ :=
  let (base, s₁) := rchoice R nets s
  if base.prefixlen = 0 then ([], s₁)
  else
    let sup := supernetAt base (base.prefixlen - 1)
    ([⟨base.version, netKey sup, netKey base, false, Network.overlaps sup base,
        if supernetOf sup base then "A_contains_B" else "relation_check"⟩], s₁)

/-- Third adjacency loop: `subnets(new_prefix = p + 1)` always yields
exactly two children, so the `len(sibs) >= 3` guard never fires and the
loop only consumes randomness (embedded faithfully). -/
def adjLoop3Step {σ : Type} (R : RNG σ) (nets : List Network) (s : σ) :
    List AdjacencyRecord × σ :=
  let (base, s₁) := rchoice R nets s
  let deepest := if base.version = 6 then 127 else 31
  if deepest ≤ base.prefixlen then ([], s₁)
  else
    let sibs := subnetsAt base (base.prefixlen + 1)
    if 3 ≤ sibs.length then
      let a := sibs.getD 0 base
      let c := sibs.getD 2 base
      ([⟨a.version, netKey a, netKey c, false, Network.overlaps a c, "disjoint"⟩], s₁)
    else ([], s₁)

/-- The envelope `build_suite` returns; `generated_at` models the
ambient `datetime.utcnow()` reading, the only run-dependent input. -/
structure SuiteRun where
  generated_at : ℕ
  test_networks : List TestNetRecord
  adjacency_cases : List AdjacencyRecord
deriving DecidableEq, Repr

/-- The two case lists `build_suite(n_v4, n_v6, n_pairs, rng_seed)`
computes before assembling its envelope: seed the RNG, seed networks,
random fill to the requested counts (12 IPv4 and 11 IPv6 seeds exist),
first-occurrence dedup, the `test_networks` records, and the three
adjacency loops of `n_pairs // 3` iterations each. -/
def buildSuiteLists {σ : Type} (R : RNG σ) (n_v4 n_v6 n_pairs rng_seed : ℕ) :
    List TestNetRecord × List AdjacencyRecord :=
  let s0 := R.seedState rng_seed
  let (fill4, s1) := fillLoop R 4 ipv4_prefixes (n_v4 - 12) s0
  let (fill6, s2) := fillLoop R 6 ipv6_prefixes (n_v6 - 11) s1
  let nets := dedupFirst (seedNetworks ++ fill4 ++ fill6)
  let (adj1, s3) := runConcat (adjLoop1Step R nets) (n_pairs / 3) s2
  let (adj2, s4) := runConcat (adjLoop2Step R nets) (n_pairs / 3) s3
  let (adj3, _) := runConcat (adjLoop3Step R nets) (n_pairs / 3) s4
  (nets.map mkTestNetRecord, adj1 ++ adj2 ++ adj3)

/-- `build_suite` evaluated in a run whose clock reads `now`: the case
lists wrapped in the envelope with the `generated_at` timestamp. -/
def buildSuiteRun {σ : Type} (R : RNG σ) (n_v4 n_v6 n_pairs rng_seed now : ℕ) :
    SuiteRun :=
  { generated_at := now
    test_networks := (buildSuiteLists R n_v4 n_v6 n_pairs rng_seed).1
    adjacency_cases := (buildSuiteLists R n_v4 n_v6 n_pairs rng_seed).2 }

/-! ### Wide-integer fixture builder (`gen_overlongs.py`, `build`) -/

def interesting_shifts : List ℕ := [0, 1, 7, 8, 15, 16, 31, 32, 63, 64, 127, 128]

/-- The constant pool `rand_overlong` draws from (duplicates included,
as in the source). -/
def overlongChoices : List ℕ :=
  [0, 1, 2, 3, 0xFF,
   2 ^ 64 - 1, 2 ^ 64,
   2 ^ 127 - 1, 2 ^ 127, 2 ^ 127 + 1,
   MAX_128 - 1, MAX_128, MAX_128 + 1,
   TWO_POW_128 - 1, TWO_POW_128, TWO_POW_128 + 1,
   MAX_129 - 1, MAX_129]

/-- The edge operand list of the shift blocks. -/
def shiftEdgeVals : List ℕ :=
  [0, 1, 2, 3, 0xFF,
   2 ^ 63 - 1, 2 ^ 63,
   2 ^ 127 - 1, 2 ^ 127, 2 ^ 127 + 1,
   MAX_128, MAX_128 + 1, TWO_POW_128, TWO_POW_128 + 1, MAX_129 - 1, MAX_129]

/-- `rand_overlong()`: with probability `r < 0.10` a fresh
`getrandbits(129)`, otherwise a `random.choice` from the pool. -/
def rand_overlong {σ : Type} (R : RNG σ) (s : σ) : ℕ × σ :=
  let (r, s₁) := R.random01 s
  if r < 1 / 10 then R.getrandbits 129 s₁
  else rchoice R overlongChoices s₁

/-- An op-fixture argument: absent (`INV`), an encoded operand
(`AND`/`OR`/`XOR`), or the decimal shift amount (`SHL`/`SHR`). -/
inductive OvArg where
  | noArg
  | hexArg (bytes : List ℕ)
  | decArg (amount : ℕ)
deriving DecidableEq, Repr

/-- One wide-integer test record. -/
structure OvCase where
  input : List ℕ
  operation : String
  argument : OvArg
  output : List ℕ
deriving DecidableEq, Repr

instance : Inhabited OvCase := ⟨⟨[], "", .noArg, []⟩⟩

/-- `encode_overlong_hex` at call sites that are in range by
construction (every operand and result in `build` is below `2^129`). -/
def encB (n : ℕ) : List ℕ := (encode_overlong_hex n).toOption.getD []

/-- `op_shl` at the in-range shift amounts of `build`. -/
def shlD (a sh : ℕ) : ℕ := (op_shl a (sh : ℤ)).toOption.getD 0

/-- `op_shr` at the in-range shift amounts of `build`. -/
def shrD (a sh : ℕ) : ℕ := (op_shr a (sh : ℤ)).toOption.getD 0

/-- One `INV` iteration of `build`. -/
def invStep {σ : Type} (R : RNG σ) (s : σ) : List OvCase × σ :=
  let (a, s₁) := rand_overlong R s
  ([⟨encB a, "INV", .noArg, encB (op_inv a)⟩], s₁)

/-- One binary-operation iteration of `build`. -/
def binStep {σ : Type} (R : RNG σ) (opName : String) (f : ℕ → ℕ → ℕ) (s : σ) :
    List OvCase × σ :=
  let (a, s₁) := rand_overlong R s
  let (b, s₂) := rand_overlong R s₁
  ([⟨encB a, opName, .hexArg (encB b), encB (f a b)⟩], s₂)

/-- The deterministic edge sub-block for one shift amount: an `SHL` and
an `SHR` case per edge operand, in order. -/
def shiftEdgeBlock (sh : ℕ) : List OvCase :=
  shiftEdgeVals.flatMap fun a =>
    [⟨encB a, "SHL", .decArg sh, encB (shlD a sh)⟩,
     ⟨encB a, "SHR", .decArg sh, encB (shrD a sh)⟩]

/-- One random iteration of the shift block: a fresh operand for `SHL`,
then a fresh operand for `SHR`. -/
def shiftRandStep {σ : Type} (R : RNG σ) (sh : ℕ) (s : σ) : List OvCase × σ :=
  let (a, s₁) := rand_overlong R s
  let (a', s₂) := rand_overlong R s₁
  ([⟨encB a, "SHL", .decArg sh, encB (shlD a sh)⟩,
    ⟨encB a', "SHR", .decArg sh, encB (shrD a' sh)⟩], s₂)

/-- The whole block for one shift amount: 16 edge pairs then 50 random
pairs. -/
def shiftBlock {σ : Type} (R : RNG σ) (sh : ℕ) (s : σ) : List OvCase × σ :=
  let (rnd, s₁) := runConcat (shiftRandStep R sh) 50 s
  (shiftEdgeBlock sh ++ rnd, s₁)

/-- The `for s in interesting_shifts()` loop. -/
def shiftsLoop {σ : Type} (R : RNG σ) : List ℕ → σ → List OvCase × σ
  | [], s => ([], s)
  | sh :: rest, s =>
    let (xs, s₁) := shiftBlock R sh s
    let (ys, s₂) := shiftsLoop R rest s₁
    (xs ++ ys, s₂)

/-- The envelope `build()` returns. -/
structure OvRun where
  generated_at : ℕ
  width_bits : ℕ
  encoding : String
  tests : List OvCase
deriving DecidableEq, Repr

/-- The `tests` list `gen_overlongs.build()` computes before assembling
its envelope: the module seeds the global RNG with the fixed
`SEED = 20250911` at import time, `build` then assembles 500 `INV`, 800
each of `AND`/`OR`/`XOR`, the shift blocks, and shuffles the list. -/
def buildOvTests {σ : Type} (R : RNG σ) : List OvCase :=
  let s0 := R.seedState 20250911
  let (t1, s1) := runConcat (invStep R) 500 s0
  let (t2, s2) := runConcat (fun s => binStep R "AND" op_and s) 800 s1
  let (t3, s3) := runConcat (fun s => binStep R "OR" op_or s) 800 s2
  let (t4, s4) := runConcat (fun s => binStep R "XOR" op_xor s) 800 s3
  let (t5, s5) := shiftsLoop R interesting_shifts s4
  (shuffleList R (t1 ++ t2 ++ t3 ++ t4 ++ t5) s5).1

/-- `build()` in a run whose clock reads `now`: the shuffled test list
wrapped in the envelope with the `generated_at` timestamp. -/
def buildOvRun {σ : Type} (R : RNG σ) (now : ℕ) : OvRun :=
  { generated_at := now
    width_bits := 129
    encoding := "big-endian; 16 bytes if < 2^128 else 17 bytes"
    tests := buildOvTests R }

/-! ### Sanity examples for the sampling embedding -/

example : derive_boundary_addresses ⟨4, 0xC0000200, 24⟩ =
    [0xC00001FF, 0xC0000200, 0xC0000201, 0xC00002FE, 0xC00002FF, 0xC0000300] := by decide
example : sample_addresses_for_network ⟨4, 0, 31⟩ 4 = [0, 1, 2] := by decide
example : bounded_child ⟨4, 0xC0000200, 24⟩ 26 = some ⟨4, 0xC0000200, 26⟩ := by decide
example : bounded_child ⟨4, 0xC0000200, 24⟩ 24 = none := by decide
example : bounded_child ⟨4, 0xC0000200, 24⟩ 33 = none := by decide

/-! ### Sanity examples for the network embedding -/

example : mergeable_and_supernet ⟨4, 0, 32⟩ ⟨4, 1, 32⟩ = .ok ⟨4, 0, 31⟩ := by decide
example : mergeable_and_supernet ⟨4, 0x0A000000, 25⟩ ⟨4, 0x0A000080, 26⟩ =
    .fail .differentPrefixLengths := by decide
example : mergeable_and_supernet ⟨4, 0x0A000000, 25⟩ ⟨6, 0x0A000080, 25⟩ =
    .fail .differentFamilies := by decide
example : mergeable_and_supernet ⟨4, 0xC0A80000, 24⟩ ⟨4, 0xC0A80200, 24⟩ =
    .fail .doesNotCollapse := by decide
example : mergeable_and_supernet ⟨4, 0x0A000040, 26⟩ ⟨4, 0x0A000080, 26⟩ =
    .fail .doesNotCollapse := by decide
example : collapse_pair ⟨4, 0x0A000000, 25⟩ ⟨4, 0x0A000080, 26⟩ =
    [⟨4, 0x0A000000, 25⟩, ⟨4, 0x0A000080, 26⟩] := by decide
example : collapse_pair ⟨4, 0x0A000000, 24⟩ ⟨4, 0x0A000080, 25⟩ =
    [⟨4, 0x0A000000, 24⟩] := by decide

/-! ### Sanity examples for the wide-integer embedding -/

example : op_inv 0 = 2 ^ 129 - 1 := by decide
example : op_and 6 3 = 2 := by decide
example : op_shl 1 (128 : ℤ) = .ok (2 ^ 128) := by decide
example : op_shl 1 (129 : ℤ) = .error "shift out of range (0..128)" := by decide
example : op_shr 4 (1 : ℤ) = .ok 2 := by decide
example : bit_length 256 = 9 := by decide
example : countRighthandZeroBits 24 32 = 3 := by decide
example : toBytesBE 3 258 = [0, 1, 2] := by decide

/-! ## Helper lemmas: wide-integer arithmetic -/

/-- On the 129-bit domain `op_inv` is subtraction from the all-ones
value. -/
theorem op_inv_eq (x : ℕ) (hx : x ≤ MAX_129) : op_inv x = MAX_129 - x := by
  unfold op_inv MAX_129 at *
  have hxn : x < 2 ^ 129 := by omega
  have hx' : (x : ℤ) < 2 ^ 129 := by exact_mod_cast hxn
  have hsplit : (-(x : ℤ) - 1) = ((2 : ℤ) ^ 129 - 1 - x) + 2 ^ 129 * (-1) := by ring
  have hmod : (-(x : ℤ) - 1) % (2 ^ 129 : ℤ) = (2 : ℤ) ^ 129 - 1 - x := by
    rw [hsplit, Int.add_mul_emod_self_left]
    apply Int.emod_eq_of_lt <;> omega
  rw [hmod]
  omega

/-- Conjugating a left shift by the 129-bit mask and the matching right
shift keeps exactly the low `129 - s` bits. -/
theorem shl_mask_shr (x s : ℕ) (hs : s ≤ 128) :
    ((x <<< s) &&& MAX_129) >>> s = x % 2 ^ (129 - s) := by
  rw [Nat.shiftLeft_eq, Nat.shiftRight_eq_div_pow, MAX_129,
    Nat.and_pow_two_sub_one_eq_mod]
  have hsplit : (2 : ℕ) ^ 129 = 2 ^ (129 - s) * 2 ^ s := by
    rw [← pow_add]
    congr 1
    omega
  rw [hsplit, Nat.mul_mod_mul_right, Nat.mul_div_cancel _ (Nat.pos_pow_of_pos s (by norm_num))]

/-- `toBytesBE` always emits the requested number of bytes. -/
theorem toBytesBE_length : ∀ L n, (toBytesBE L n).length = L := by
  intro L
  induction L with
  | zero => intro n; rfl
  | succ L ih =>
    intro n
    simp [toBytesBE, ih]

/-- Folding the big-endian bytes back recovers the value modulo
`256^L`. -/
theorem foldl_toBytesBE : ∀ (L n acc : ℕ),
    (toBytesBE L n).foldl (fun a b => a * 256 + b) acc = acc * 256 ^ L + n % 256 ^ L := by
  intro L
  induction L with
  | zero => intro n acc; simp [toBytesBE, Nat.mod_one]
  | succ L ih =>
    intro n acc
    have hmod : n % 256 ^ (L + 1) = (n / 256 % 256 ^ L) * 256 + n % 256 := by
      have h2 : n % (256 * 256 ^ L) % 256 = n % 256 :=
        Nat.mod_mod_of_dvd n ⟨256 ^ L, rfl⟩
      have h3 : n % (256 * 256 ^ L) / 256 = n / 256 % 256 ^ L :=
        Nat.mod_mul_right_div_self n 256 (256 ^ L)
      have h4 := Nat.div_add_mod (n % (256 * 256 ^ L)) 256
      rw [show (256 : ℕ) ^ (L + 1) = 256 * 256 ^ L from by ring]
      omega
    simp only [toBytesBE, List.foldl_append, List.foldl_cons, List.foldl_nil, ih]
    rw [hmod]
    ring

/-- Big-endian decoding inverts `toBytesBE` for values that fit. -/
theorem fromBytesBE_toBytesBE (L n : ℕ) (h : n < 2 ^ (8 * L)) :
    fromBytesBE (toBytesBE L n) = n := by
  have h256 : (256 : ℕ) ^ L = 2 ^ (8 * L) := by
    rw [show (256 : ℕ) = 2 ^ 8 from rfl, ← pow_mul]
  unfold fromBytesBE
  rw [foldl_toBytesBE]
  simp [Nat.mod_eq_of_lt (h256 ▸ h)]

/-! ## C5: double inversion and shift round-trip on the 129-bit domain -/

/-- C5.  For every `x` in `[0, 2^129 - 1]`, `op_inv (op_inv x) = x`, and
for every shift amount `s` in `[0, 128]` the round trip
`op_shr (op_shl x s) s` succeeds and returns `x` with exactly its top
`s` bits cleared, i.e. `x mod 2^(129 - s)`. -/
theorem wideint_inv_involutive_and_shift_roundtrip (x : ℕ) (hx : x ≤ MAX_129)
    (s : ℤ) (h0 : 0 ≤ s) (h1 : s ≤ 128) :
    op_inv (op_inv x) = x ∧
    ∃ y, op_shl x s = .ok y ∧ op_shr y s = .ok (x % 2 ^ (129 - s.toNat)) := by
  have hsN : s.toNat ≤ 128 := by omega
  refine ⟨?_, (x <<< s.toNat) &&& MAX_129, ?_, ?_⟩
  · rw [op_inv_eq x hx, op_inv_eq (MAX_129 - x) (Nat.sub_le _ _)]
    omega
  · simp [op_shl, h0, h1]
  · simp only [op_shr, h0, h1, and_self, if_pos]
    rw [shl_mask_shr x s.toNat hsN]

/-- Witness for C5 at `x = 5`, `s = 3`. -/
theorem wideint_inv_involutive_and_shift_roundtrip_witness :
    op_inv (op_inv 5) = 5 ∧
    ∃ y, op_shl 5 (3 : ℤ) = .ok y ∧ op_shr y (3 : ℤ) = .ok (5 % 2 ^ (129 - (3 : ℤ).toNat)) :=
  wideint_inv_involutive_and_shift_roundtrip 5 (by decide) 3 (by decide) (by decide)

/-! ## C6: canonical encoding length and the `NOT 0` scenario -/

/-- C6.  For every in-range wide integer the canonical encoding is the
big-endian byte string of length exactly 16 (`n < 2^128`) or exactly 17
(otherwise) whose bytes decode back to `n`; and `op_inv 0 = 2^129 - 1`,
whose encoding is the 17-byte big-endian form of `2^129 - 1`, namely
`01` followed by sixteen `ff` bytes. -/
theorem encode_overlong_hex_spec (n : ℕ) (hn : n ≤ MAX_129) :
    encode_overlong_hex n = .ok (toBytesBE (if n < TWO_POW_128 then 16 else 17) n) ∧
    (toBytesBE (if n < TWO_POW_128 then 16 else 17) n).length =
      (if n < TWO_POW_128 then 16 else 17) ∧
    fromBytesBE (toBytesBE (if n < TWO_POW_128 then 16 else 17) n) = n ∧
    op_inv 0 = 2 ^ 129 - 1 ∧
    encode_overlong_hex (op_inv 0) = .ok (toBytesBE 17 (2 ^ 129 - 1)) ∧
    toBytesBE 17 (2 ^ 129 - 1) = 1 :: List.replicate 16 255 := by
  refine ⟨?_, toBytesBE_length _ n, ?_, by decide, by decide, by decide⟩
  · simp only [encode_overlong_hex]
    rw [if_neg (by omega)]
  · apply fromBytesBE_toBytesBE
    by_cases h : n < TWO_POW_128
    · rw [if_pos h]
      exact lt_of_lt_of_le h (by norm_num [TWO_POW_128])
    · rw [if_neg h]
      unfold MAX_129 at hn
      calc n ≤ 2 ^ 129 - 1 := hn
        _ < 2 ^ (8 * 17) := by norm_num

/-- Witness for C6 at `n = 2^128` (the 17-byte class). -/
theorem encode_overlong_hex_spec_witness :
    encode_overlong_hex (2 ^ 128) =
      .ok (toBytesBE (if 2 ^ 128 < TWO_POW_128 then 16 else 17) (2 ^ 128)) :=
  (encode_overlong_hex_spec (2 ^ 128) (by norm_num [MAX_129])).1

/-! ## C7: shift operations fail exactly outside `[0, 128]` -/

/-- C7.  `op_shl`/`op_shr` return the shift-range error exactly when the
shift amount lies outside `[0, 128]`; inside the range they return
normally, `op_shl` yielding the left shift masked to 129 bits (that is,
`(a * 2^s) mod 2^129`) and `op_shr` the logical right shift
(`a / 2^s`). -/
theorem shift_ops_range_spec (a : ℕ) (s : ℤ) :
    ((∃ e, op_shl a s = .error e) ↔ ¬ (0 ≤ s ∧ s ≤ 128)) ∧
    ((∃ e, op_shr a s = .error e) ↔ ¬ (0 ≤ s ∧ s ≤ 128)) ∧
    (0 ≤ s → s ≤ 128 →
      op_shl a s = .ok ((a * 2 ^ s.toNat) % 2 ^ 129) ∧
      op_shr a s = .ok (a / 2 ^ s.toNat)) := by
  refine ⟨?_, ?_, fun h0 h1 => ⟨?_, ?_⟩⟩
  · unfold op_shl
    split
    · simp_all
    · simp_all
  · unfold op_shr
    split
    · simp_all
    · simp_all
  · simp only [op_shl, if_pos (And.intro h0 h1)]
    rw [Nat.shiftLeft_eq, MAX_129, Nat.and_pow_two_sub_one_eq_mod]
  · simp only [op_shr, if_pos (And.intro h0 h1)]
    rw [Nat.shiftRight_eq_div_pow]

/-- Witness for C7 at `a = 7`, `s = 2`. -/
theorem shift_ops_range_spec_witness :
    op_shl 7 (2 : ℤ) = .ok ((7 * 2 ^ (2 : ℤ).toNat) % 2 ^ 129) ∧
    op_shr 7 (2 : ℤ) = .ok (7 / 2 ^ (2 : ℤ).toNat) :=
  (shift_ops_range_spec 7 2).2.2 (by decide) (by decide)

/-! ## C8: `bounded_child` never raises and returns the first child -/

/-- C8.  `bounded_child n newp` returns `none` exactly when the target
prefix is not strictly deeper than `n`'s prefix or exceeds the family
width; otherwise it returns the first child of `n` at `newp`, which is
the network with `n`'s address at the deeper prefix. -/
theorem bounded_child_spec (n : Network) (newp : ℕ) :
    (bounded_child n newp = none ↔ newp ≤ n.prefixlen ∨ widthOf n.version < newp) ∧
    (n.prefixlen < newp → newp ≤ widthOf n.version →
      bounded_child n newp = some ⟨n.version, n.addr, newp⟩) := by
  have hfirst : n.prefixlen < newp →
      (subnetsAt n newp).head? = some ⟨n.version, n.addr, newp⟩ := by
    intro _
    obtain ⟨m, hm⟩ : ∃ m, 2 ^ (newp - n.prefixlen) = m + 1 :=
      ⟨2 ^ (newp - n.prefixlen) - 1, by
        have := Nat.one_le_two_pow (n := newp - n.prefixlen)
        omega⟩
    simp [subnetsAt, hm, List.range_succ_eq_map]
  constructor
  · unfold bounded_child
    split
    · simp_all
    · split
      · simp_all
      · rename_i h1 h2
        rw [hfirst (by omega)]
        simp
        omega
  · intro h1 h2
    unfold bounded_child
    rw [if_neg (by omega), if_neg (by omega), hfirst h1]

/-- Witness for C8: the first `/26` child of `192.0.2.0/24`, plus both
no-result cases at a concrete network. -/
theorem bounded_child_spec_witness :
    bounded_child ⟨4, 0xC0000200, 24⟩ 26 = some ⟨4, 0xC0000200, 26⟩ :=
  (bounded_child_spec ⟨4, 0xC0000200, 24⟩ 26).2 (by decide) (by decide)

/-! ## C9: the interior walk is capped by `k` -/

/-- C9.  For every network and cap `k` the interior walk contributes at
most `k` addresses, and `sample_addresses_for_network` is exactly the
deduplicated sort of the boundary points together with that capped walk
— in particular it is a finite list whose interior portion has at most
`k` elements, for networks of any size. -/
theorem interior_walk_bounded (n : Network) (k : ℕ) :
    (interiorWalk n k).length ≤ k ∧
    sample_addresses_for_network n k =
      sortedDedup (derive_boundary_addresses n ++ interiorWalk n k) := by
  constructor
  · simp only [interiorWalk]
    split
    · simp only [List.length_map, List.length_range]
      omega
    · simp
  · simp only [sample_addresses_for_network]
    split
    · rename_i h
      have hk : k = 0 := by omega
      subst hk
      simp [interiorWalk]
    · rfl

/-! ## Helper lemmas: `sorted(set(...))` preserves membership -/

/-- Membership through the dedup-insertion step. -/
theorem mem_insertDedup (x a : ℕ) : ∀ l : List ℕ, a ∈ insertDedup x l ↔ a = x ∨ a ∈ l := by
  intro l
  induction l with
  | nil => simp [insertDedup]
  | cons y ys ih =>
    rw [insertDedup]
    split_ifs with h1 h2
    · subst h1
      simp only [List.mem_cons]
      tauto
    · simp only [List.mem_cons]
    · simp only [List.mem_cons, ih]
      tauto

/-- `sorted(set(l))` has exactly the members of `l`. -/
theorem mem_sortedDedup (a : ℕ) (l : List ℕ) : a ∈ sortedDedup l ↔ a ∈ l := by
  induction l with
  | nil => simp [sortedDedup]
  | cons y ys ih =>
    rw [show sortedDedup (y :: ys) = insertDedup y (sortedDedup ys) from rfl,
      mem_insertDedup, List.mem_cons, ih]

/-- Membership in a conditionally-included list chunk. -/
theorem mem_if_list {c : Prop} [Decidable c] {a : ℕ} {l : List ℕ} :
    a ∈ (if c then l else []) ↔ c ∧ a ∈ l := by
  split <;> simp_all

/-- Every boundary point is a member of the network or one of the two
immediately-outside neighbours. -/
theorem mem_derive_boundary (n : Network) (a : ℕ)
    (ha : a ∈ derive_boundary_addresses n) :
    (n.addr ≤ a ∧ a ≤ lastAddr n) ∨ a = n.addr - 1 ∨ a = lastAddr n + 1 := by
  have ht : 1 ≤ n.num_addresses := Nat.one_le_two_pow
  have hlast : lastAddr n = n.addr + n.num_addresses - 1 := rfl
  by_cases hv : n.version = 4 <;>
    simp only [derive_boundary_addresses, mem_sortedDedup, hv, reduceIte,
      List.mem_append, List.mem_cons, List.not_mem_nil, or_false, mem_if_list] at ha <;>
    omega

/-- Every interior-walk sample is a member of the network. -/
theorem mem_interiorWalk (n : Network) (k a : ℕ) (ha : a ∈ interiorWalk n k) :
    n.addr ≤ a ∧ a ≤ lastAddr n := by
  have ht : 1 ≤ n.num_addresses := Nat.one_le_two_pow
  have hlast : lastAddr n = n.addr + n.num_addresses - 1 := rfl
  simp only [interiorWalk] at ha
  split at ha
  · simp only [List.mem_map, List.mem_range] at ha
    obtain ⟨i, _, hi⟩ := ha
    have hmin : min (n.num_addresses - 1)
        (i * max 1 (n.num_addresses / min k (n.num_addresses - 1))) ≤
        n.num_addresses - 1 := Nat.min_le_left _ _
    omega
  · exact absurd ha (List.not_mem_nil a)

/-! ## C2: sampled addresses versus network membership (corrected) -/

/-- Counterexample to C2 as stated: for `n = 192.0.2.0/24` and cap 0 the
sampled set contains `192.0.1.255`, which is strictly below `n.first`,
so not every sampled address is a member of `n`. -/
theorem sample_addresses_membership_counterexample :
    0xC00001FF ∈ sample_addresses_for_network ⟨4, 0xC0000200, 24⟩ 0 ∧
    ¬ ((Network.mk 4 0xC0000200 24).addr ≤ 0xC00001FF ∧
       0xC00001FF ≤ lastAddr ⟨4, 0xC0000200, 24⟩) := by decide

/-- C2 amended.  Every address in the sampled set of `n` either is a
member of `n` by the interval definition (`n.first ≤ a ≤ n.last`) or is
one of the two deliberately added outside neighbours `n.first - 1` and
`n.last + 1` (the code adds them, clamped to the family range, to
produce negative membership fixtures). -/
theorem sample_addresses_near_network (n : Network) (k a : ℕ)
    (ha : a ∈ sample_addresses_for_network n k) :
    (n.addr ≤ a ∧ a ≤ lastAddr n) ∨ a = n.addr - 1 ∨ a = lastAddr n + 1 := by
  simp only [sample_addresses_for_network] at ha
  split at ha
  · rw [mem_sortedDedup] at ha
    exact mem_derive_boundary n a ha
  · rw [mem_sortedDedup, List.mem_append] at ha
    rcases ha with ha | ha
    · exact mem_derive_boundary n a ha
    · exact .inl (mem_interiorWalk n k a ha)

/-- Witness for the amended C2 at a concrete sampled address. -/
theorem sample_addresses_near_network_witness :
    ((Network.mk 4 0xC0000200 24).addr ≤ 0xC00001FF ∧
       0xC00001FF ≤ lastAddr ⟨4, 0xC0000200, 24⟩) ∨
    0xC00001FF = (Network.mk 4 0xC0000200 24).addr - 1 ∨
    0xC00001FF = lastAddr ⟨4, 0xC0000200, 24⟩ + 1 :=
  sample_addresses_near_network ⟨4, 0xC0000200, 24⟩ 0 0xC00001FF (by decide)

/-! ## Helper lemmas: trailing zeros, bit length, and the greedy
summariser -/

/-- `tzF` computes the exact 2-adic valuation once the fuel dominates
the argument. -/
theorem tzF_spec : ∀ f n, 0 < n → n ≤ f →
    2 ^ tzF f n ∣ n ∧ ¬ 2 ^ (tzF f n + 1) ∣ n := by
  intro f
  induction f with
  | zero => intro n h1 h2; omega
  | succ f ih =>
    intro n h1 h2
    rw [tzF]
    by_cases hodd : n % 2 = 1
    · rw [if_pos hodd]
      refine ⟨one_dvd n, fun hdvd => ?_⟩
      have h2d : 2 ∣ n := by simpa using hdvd
      omega
    · rw [if_neg hodd]
      have h2dvd : 2 ∣ n := by omega
      have h1' : 0 < n / 2 := by omega
      have h2' : n / 2 ≤ f := by omega
      obtain ⟨⟨m, hm⟩, hnd⟩ := ih (n / 2) h1' h2'
      set t := tzF f (n / 2) with ht
      constructor
      · refine ⟨m, ?_⟩
        have hn : n = n / 2 * 2 := (Nat.div_mul_cancel h2dvd).symm
        calc n = n / 2 * 2 := hn
          _ = 2 ^ t * m * 2 := by rw [hm]
          _ = 2 ^ (t + 1) * m := by rw [pow_succ]; ring
      · rintro ⟨m, hm⟩
        apply hnd
        refine ⟨m, ?_⟩
        have hr : (2 : ℕ) ^ (t + 1 + 1) * m = 2 ^ (t + 1) * m * 2 := by
          rw [pow_succ]
          ring
        rw [hm, hr, Nat.mul_div_cancel _ (by norm_num)]

/-- Any power of two dividing the address bounds the counted righthand
zero bits from below (up to the family width). -/
theorem le_countRighthandZeroBits (n W k : ℕ) (hk : k ≤ W) (hdvd : 2 ^ k ∣ n) :
    k ≤ countRighthandZeroBits n W := by
  unfold countRighthandZeroBits
  split
  · exact hk
  · rename_i hn
    have h1 : 0 < n := Nat.pos_of_ne_zero hn
    have hs := tzF_spec n n h1 le_rfl
    rcases Nat.lt_or_ge (tzF n n) k with hlt | hge
    · exact absurd (dvd_trans (pow_dvd_pow 2 (by omega)) hdvd) hs.2
    · omega

/-- `bitLenF` of zero is zero at any fuel. -/
theorem bitLenF_zero : ∀ f, bitLenF f 0 = 0 := by
  intro f
  cases f <;> simp [bitLenF]

/-- `bitLenF` brackets its argument between consecutive powers of two
once the fuel dominates it. -/
theorem bitLenF_spec : ∀ f n, 0 < n → n ≤ f →
    n < 2 ^ bitLenF f n ∧ 2 ^ bitLenF f n ≤ 2 * n := by
  intro f
  induction f with
  | zero => intro n h1 h2; omega
  | succ f ih =>
    intro n h1 h2
    rw [bitLenF, if_neg (by omega)]
    by_cases hsmall : n / 2 = 0
    · have hn1 : n = 1 := by omega
      subst hn1
      rw [show (1 : ℕ) / 2 = 0 from rfl, bitLenF_zero]
      norm_num
    · have h1' : 0 < n / 2 := Nat.pos_of_ne_zero hsmall
      have h2' : n / 2 ≤ f := by omega
      obtain ⟨hlt, hle⟩ := ih (n / 2) h1' h2'
      rw [pow_succ]
      omega

/-- `bit_length (2^m) = m + 1`, as for Python's `int.bit_length`. -/
theorem bit_length_two_pow (m : ℕ) : bit_length (2 ^ m) = m + 1 := by
  obtain ⟨hlt, hle⟩ := bitLenF_spec (2 ^ m) (2 ^ m) (by positivity) le_rfl
  have h1 : m < bitLenF (2 ^ m) (2 ^ m) :=
    (Nat.pow_lt_pow_iff_right (by norm_num)).mp hlt
  have hx : (2 : ℕ) ^ bitLenF (2 ^ m) (2 ^ m) ≤ 2 ^ (m + 1) := by
    rw [pow_succ]
    omega
  have h2 : bitLenF (2 ^ m) (2 ^ m) ≤ m + 1 :=
    (Nat.pow_le_pow_iff_right (by norm_num)).mp hx
  unfold bit_length
  omega

/-- The fuel of the greedy summariser is irrelevant above the span
length: every iteration advances `first` by at least one. -/
theorem summarizeGo_congr (W : ℕ) : ∀ f₁ f₂ first last : ℕ,
    last + 1 - first ≤ f₁ → last + 1 - first ≤ f₂ →
    summarizeGo W f₁ first last = summarizeGo W f₂ first last := by
  intro f₁
  induction f₁ with
  | zero =>
    intro f₂ first last h1 h2
    have hfl : ¬ first ≤ last := by omega
    cases f₂ with
    | zero => rfl
    | succ f₂ =>
      rw [summarizeGo, summarizeGo, if_neg hfl]
  | succ f₁ ih =>
    intro f₂ first last h1 h2
    cases f₂ with
    | zero =>
      have hfl : ¬ first ≤ last := by omega
      rw [summarizeGo, summarizeGo, if_neg hfl]
    | succ f₂ =>
      rw [summarizeGo, summarizeGo]
      by_cases hfl : first ≤ last
      · rw [if_pos hfl, if_pos hfl]
        have hpow : 1 ≤ (2 : ℕ) ^ min (countRighthandZeroBits first W)
            (bit_length (last - first + 1) - 1) := Nat.one_le_two_pow
        congr 1
        exact ih f₂ _ last (by omega) (by omega)
      · rw [if_neg hfl, if_neg hfl]

/-- The loop equation of `summarize_address_range` for a non-empty
span. -/
theorem summarizeRange_step (W first last : ℕ) (h : first ≤ last) :
    summarizeRange W first last =
      (first,
        W - min (countRighthandZeroBits first W) (bit_length (last - first + 1) - 1)) ::
        summarizeRange W
          (first + 2 ^ min (countRighthandZeroBits first W) (bit_length (last - first + 1) - 1))
          last := by
  unfold summarizeRange
  obtain ⟨f, hf⟩ : ∃ f, last + 1 - first = f + 1 := ⟨last - first, by omega⟩
  rw [hf, summarizeGo, if_pos h]
  congr 1
  have hpow : 1 ≤ (2 : ℕ) ^ min (countRighthandZeroBits first W)
      (bit_length (last - first + 1) - 1) := Nat.one_le_two_pow
  exact summarizeGo_congr W f _ _ last (by omega) (by omega)

/-- The summariser of an empty span is empty. -/
theorem summarizeRange_empty (W first last : ℕ) (h : last < first) :
    summarizeRange W first last = [] := by
  unfold summarizeRange
  rw [show last + 1 - first = 0 from by omega]
  rfl

/-- Summarising one aligned CIDR block returns exactly that block:
the greedy first step takes the whole span. -/
theorem summarizeRange_block (W A p : ℕ) (hp : p ≤ W) (hdvd : 2 ^ (W - p) ∣ A) :
    summarizeRange W A (A + 2 ^ (W - p) - 1) = [(A, p)] := by
  have hpow : 1 ≤ (2 : ℕ) ^ (W - p) := Nat.one_le_two_pow
  have hnb : min (countRighthandZeroBits A W)
      (bit_length (A + 2 ^ (W - p) - 1 - A + 1) - 1) = W - p := by
    rw [show A + 2 ^ (W - p) - 1 - A + 1 = 2 ^ (W - p) from by omega,
      bit_length_two_pow]
    have hczb : W - p ≤ countRighthandZeroBits A W :=
      le_countRighthandZeroBits A W (W - p) (by omega) hdvd
    omega
  rw [summarizeRange_step W A _ (by omega), hnb,
    show W - (W - p) = p from by omega,
    summarizeRange_empty W _ _ (by omega)]

/-- The number of children `subnets(new_prefix=newp)` yields. -/
theorem subnetsAt_length (n : Network) (newp : ℕ) :
    (subnetsAt n newp).length = 2 ^ (newp - n.prefixlen) := by
  simp [subnetsAt]

/-! ## C3: splitting a parent yields mergeable siblings that merge back -/

/-- Splitting one bit deeper and collapsing back: the two children of a
valid parent are its two subnets, and the merge oracle accepts them and
returns the parent.  (Helper carrying the whole computation; the claim
theorem packages it with the concrete scenario.) -/
theorem split_merge_general (P : Network) (hval : P.Valid)
    (hlt : P.prefixlen < widthOf P.version) :
    subnetsAt P (P.prefixlen + 1) =
      [⟨P.version, P.addr, P.prefixlen + 1⟩,
       ⟨P.version, P.addr + 2 ^ (widthOf P.version - (P.prefixlen + 1)), P.prefixlen + 1⟩] ∧
    mergeable_and_supernet ⟨P.version, P.addr, P.prefixlen + 1⟩
      ⟨P.version, P.addr + 2 ^ (widthOf P.version - (P.prefixlen + 1)), P.prefixlen + 1⟩ =
      .ok P := by
  obtain ⟨v, A, p⟩ := P
  obtain ⟨hv, hp, haddr, hdvd⟩ := hval
  simp only at hlt hp haddr hdvd ⊢
  set W := widthOf v with hW
  set h := (2 : ℕ) ^ (W - (p + 1)) with hh
  have hone : 1 ≤ h := Nat.one_le_two_pow
  have hsplit2 : h + h = 2 ^ (W - p) := by
    rw [hh, show W - p = W - (p + 1) + 1 from by omega, pow_succ]
    ring
  have hsub : ∀ q B, subnetsAt ⟨v, B, q⟩ (q + 1) =
      [⟨v, B, q + 1⟩, ⟨v, B + 2 ^ (W - (q + 1)), q + 1⟩] := by
    intro q B
    unfold subnetsAt
    simp only [show q + 1 - q = 1 from by omega, pow_one,
      show List.range 2 = [0, 1] from rfl, List.map_cons, List.map_nil]
    norm_num
  refine ⟨by simpa using hsub p A, ?_⟩
  have hlastA : lastAddr ⟨v, A, p + 1⟩ = A + h - 1 := by
    simp [lastAddr, Network.num_addresses, hh]
  have hlastB : lastAddr ⟨v, A + h, p + 1⟩ = A + h + h - 1 := by
    simp [lastAddr, Network.num_addresses, hh]
  have hcol : collapse_pair ⟨v, A, p + 1⟩ ⟨v, A + h, p + 1⟩ = [⟨v, A, p⟩] := by
    unfold collapse_pair
    rw [hlastA, hlastB]
    simp only
    rw [if_pos (by omega), show min A (A + h) = A from by omega,
      show max (A + h - 1) (A + h + h - 1) = A + 2 ^ (W - p) - 1 from by omega,
      summarizeRange_block W A p (by omega) hdvd]
    simp
  unfold mergeable_and_supernet
  rw [if_neg (by simp), if_neg (by simp), if_neg (by simp), hcol]
  simp only
  rw [if_neg (by simp),
    if_neg (by rw [subnetsAt_length, show p + 1 - p = 1 from by omega, pow_one]; simp),
    if_neg (by simp only [ne_eq, not_not]; rw [hsub p A, hh])]

/-- C3.  For every valid parent `P` deeper than prefix 0 is possible
(prefix strictly below the family width), splitting one bit deeper
yields exactly the two same-family, same-prefix sibling children, the
merge oracle reports them mergeable, and the merge result is `P`; in
particular `10.0.0.0/24` splits into `10.0.0.0/25` and `10.0.0.128/25`,
which merge back to `10.0.0.0/24`. -/
theorem split_siblings_mergeable (P : Network) (hval : P.Valid)
    (hlt : P.prefixlen < widthOf P.version) :
    (∃ c₀ c₁, subnetsAt P (P.prefixlen + 1) = [c₀, c₁] ∧
      c₀.version = c₁.version ∧ c₀.prefixlen = c₁.prefixlen ∧
      mergeable_and_supernet c₀ c₁ = .ok P) ∧
    subnetsAt ⟨4, 0x0A000000, 24⟩ 25 = [⟨4, 0x0A000000, 25⟩, ⟨4, 0x0A000080, 25⟩] ∧
    mergeable_and_supernet ⟨4, 0x0A000000, 25⟩ ⟨4, 0x0A000080, 25⟩ =
      .ok ⟨4, 0x0A000000, 24⟩ := by
  obtain ⟨hsub, hmerge⟩ := split_merge_general P hval hlt
  exact ⟨⟨_, _, hsub, rfl, rfl, hmerge⟩, by decide, by decide⟩

/-- Witness for C3 at the concrete parent `10.0.0.0/24`. -/
theorem split_siblings_mergeable_witness :
    ∃ c₀ c₁, subnetsAt ⟨4, 0x0A000000, 24⟩ ((Network.mk 4 0x0A000000 24).prefixlen + 1) =
        [c₀, c₁] ∧
      c₀.version = c₁.version ∧ c₀.prefixlen = c₁.prefixlen ∧
      mergeable_and_supernet c₀ c₁ = .ok ⟨4, 0x0A000000, 24⟩ :=
  (split_siblings_mergeable ⟨4, 0x0A000000, 24⟩ (by decide) (by decide)).1

/-! ## C1: full characterisation of the merge oracle -/

/-- C1.  The oracle reports the pair mergeable (returning `ok s`)
exactly when the families agree, the prefix lengths agree with
`p ≥ 1`, the collapse is the single network `s` one prefix bit shorter,
and splitting `s` back at prefix `p` reproduces exactly the two-element
set `{a, b}` of `with_prefixlen` keys; on failure the reason is one of
the six published codes (the seventh in-code branch, the subdivision
count, is unreachable: a block at prefix `p - 1` always has exactly two
subnets at prefix `p`). -/
theorem mergeable_and_supernet_characterisation (a b : Network) :
    (∀ s : Network, mergeable_and_supernet a b = .ok s ↔
      (a.version = b.version ∧ a.prefixlen = b.prefixlen ∧ 1 ≤ a.prefixlen ∧
       collapse_pair a b = [s] ∧ s.prefixlen = a.prefixlen - 1 ∧
       ((subnetsAt s a.prefixlen).map netKey).toFinset = ([a, b].map netKey).toFinset)) ∧
    (∀ r : MergeReason, mergeable_and_supernet a b = .fail r →
      r = .differentFamilies ∨ r = .differentPrefixLengths ∨ r = .cannotSupernetZero ∨
      r = .doesNotCollapse ∨ r = .notOneBitShorter ∨ r = .doesNotSplitBack) := by
  unfold mergeable_and_supernet
  by_cases h1 : a.version ≠ b.version
  · rw [if_pos h1]
    refine ⟨fun s => ⟨(fun hcontra => nomatch hcontra), fun ⟨hv, _⟩ => absurd hv h1⟩, ?_⟩
    intro r hr
    injection hr with h
    subst h
    simp
  · rw [if_neg h1]
    rw [not_not] at h1
    by_cases h2 : a.prefixlen ≠ b.prefixlen
    · rw [if_pos h2]
      refine ⟨fun s => ⟨(fun hcontra => nomatch hcontra), fun ⟨_, hp, _⟩ => absurd hp h2⟩, ?_⟩
      intro r hr
      injection hr with h
      subst h
      simp
    · rw [if_neg h2]
      rw [not_not] at h2
      by_cases h3 : a.prefixlen = 0
      · rw [if_pos h3]
        refine ⟨fun s => ⟨(fun hcontra => nomatch hcontra), fun ⟨_, _, hp1, _⟩ => by omega⟩, ?_⟩
        intro r hr
        injection hr with h
        subst h
        simp
      · rw [if_neg h3]
        rcases hcol : collapse_pair a b with - | ⟨s₀, - | ⟨s₁, t⟩⟩
        · simp only [hcol]
          refine ⟨fun s => ⟨(fun hcontra => nomatch hcontra), ?_⟩, ?_⟩
          · rintro ⟨-, -, -, hc, -⟩
            exact absurd hc (by simp)
          · intro r hr
            injection hr with h
            subst h
            simp
        · simp only [hcol]
          by_cases h4 : s₀.prefixlen ≠ a.prefixlen - 1
          · rw [if_pos h4]
            refine ⟨fun s => ⟨(fun hcontra => nomatch hcontra), ?_⟩, ?_⟩
            · rintro ⟨-, -, -, hc, hs, -⟩
              injection hc with hc
              subst hc
              exact absurd hs h4
            · intro r hr
              injection hr with h
              subst h
              simp
          · rw [if_neg h4]
            rw [not_not] at h4
            have hlen : (subnetsAt s₀ a.prefixlen).length = 2 := by
              rw [subnetsAt_length, h4,
                show a.prefixlen - (a.prefixlen - 1) = 1 from by omega, pow_one]
            rw [if_neg (by rw [hlen]; simp)]
            by_cases h5 : ((subnetsAt s₀ a.prefixlen).map netKey).toFinset ≠
                ([a, b].map netKey).toFinset
            · rw [if_pos h5]
              refine ⟨fun s => ⟨(fun hcontra => nomatch hcontra), ?_⟩, ?_⟩
              · rintro ⟨-, -, -, hc, -, hset⟩
                injection hc with hc
                subst hc
                exact absurd hset h5
              · intro r hr
                injection hr with h
                subst h
                simp
            · rw [if_neg h5]
              rw [not_not] at h5
              refine ⟨fun s => ⟨?_, ?_⟩, ?_⟩
              · intro hok
                injection hok with hok
                subst hok
                exact ⟨h1, h2, by omega, rfl, h4, h5⟩
              · rintro ⟨-, -, -, hc, -, -⟩
                injection hc with hc
                subst hc
                rfl
              · intro r hr
                exact absurd hr (by simp)
        · simp only [hcol]
          refine ⟨fun s => ⟨(fun hcontra => nomatch hcontra), ?_⟩, ?_⟩
          · rintro ⟨-, -, -, hc, -⟩
            exact absurd hc (by simp)
          · intro r hr
            injection hr with h
            subst h
            simp

/-- Witness for C1: the characterisation applied at the mergeable pair
`0.0.0.0/32`, `0.0.0.1/32` with supernet `0.0.0.0/31`. -/
theorem mergeable_and_supernet_characterisation_witness :
    mergeable_and_supernet ⟨4, 0, 32⟩ ⟨4, 1, 32⟩ = .ok ⟨4, 0, 31⟩ :=
  ((mergeable_and_supernet_characterisation ⟨4, 0, 32⟩ ⟨4, 1, 32⟩).1 ⟨4, 0, 31⟩).mpr
    ⟨rfl, rfl, by norm_num, by decide, rfl, by decide⟩

/-! ## C10: the merge oracle is symmetric -/

/-- The keys of the pair `{a, b}` form the same finset in either
order. -/
theorem pair_key_finset_comm (a b : Network) :
    ([a, b].map netKey).toFinset = ([b, a].map netKey).toFinset := by
  simp [Finset.pair_comm]

/-- `collapse_addresses` does not depend on the order of its two
arguments (for the same-version, same-prefix pairs the oracle feeds
it past its first two checks). -/
theorem collapse_pair_comm (a b : Network) (hv : a.version = b.version)
    (hp : a.prefixlen = b.prefixlen) : collapse_pair a b = collapse_pair b a := by
  unfold collapse_pair
  by_cases hc : max a.addr b.addr ≤ min (lastAddr a) (lastAddr b) + 1
  · have hc2 : max b.addr a.addr ≤ min (lastAddr b) (lastAddr a) + 1 := by
      rw [max_comm, min_comm]
      exact hc
    rw [if_pos hc, if_pos hc2, min_comm b.addr a.addr,
      max_comm (lastAddr b) (lastAddr a), hv]
  · have hc2 : ¬ max b.addr a.addr ≤ min (lastAddr b) (lastAddr a) + 1 := by
      rw [max_comm, min_comm]
      exact hc
    rw [if_neg hc, if_neg hc2]
    rcases Nat.lt_trichotomy a.addr b.addr with h | h | h
    · rw [if_pos (show a.addr < b.addr ∨ a.addr = b.addr ∧ a.prefixlen ≤ b.prefixlen from
          Or.inl h),
        if_neg (show ¬ (b.addr < a.addr ∨ b.addr = a.addr ∧ b.prefixlen ≤ a.prefixlen) from
          by omega)]
    · have hab : a = b := by
        obtain ⟨va, aa, pa⟩ := a
        obtain ⟨vb, ab2, pb⟩ := b
        simp_all
      rw [hab]
    · rw [if_neg (show ¬ (a.addr < b.addr ∨ a.addr = b.addr ∧ a.prefixlen ≤ b.prefixlen) from
          by omega),
        if_pos (show b.addr < a.addr ∨ b.addr = a.addr ∧ b.prefixlen ≤ a.prefixlen from
          Or.inl h)]

/-- C10.  The merge oracle is symmetric: both argument orders produce
the same verdict, the same supernet on success, and the same reason
code on failure. -/
theorem mergeable_and_supernet_symm (a b : Network) :
    mergeable_and_supernet a b = mergeable_and_supernet b a := by
  unfold mergeable_and_supernet
  by_cases h1 : a.version = b.version
  · rw [if_neg (show ¬ a.version ≠ b.version from by simp [h1]),
      if_neg (show ¬ b.version ≠ a.version from by simp [h1])]
    by_cases h2 : a.prefixlen = b.prefixlen
    · rw [collapse_pair_comm a b h1 h2, h2, pair_key_finset_comm a b]
    · rw [if_pos (show a.prefixlen ≠ b.prefixlen from h2),
        if_pos (show b.prefixlen ≠ a.prefixlen from Ne.symm h2)]
  · rw [if_pos (show a.version ≠ b.version from h1),
      if_pos (show b.version ≠ a.version from Ne.symm h1)]

/-! ## C4: generation is deterministic given seed and counts -/

/-- C4.  Fixture generation is a pure function of the seed, the count
parameters, and the (deterministic) RNG implementation: two runs whose
ambient clocks read `t₁` and `t₂` but which share the seed and counts
produce element-for-element equal `test_networks` and `adjacency_cases`
lists from `build_suite`, equal merge-case lists
(`edge_cases ++ random_cases`), and equal wide-integer test lists from
`build` — the clock only ever reaches the `generated_at` metadata. -/
theorem generation_runs_deterministic {σ : Type} (R : RNG σ)
    (seed n_v4 n_v6 n_pairs count t₁ t₂ : ℕ) :
    (buildSuiteRun R n_v4 n_v6 n_pairs seed t₁).test_networks =
      (buildSuiteRun R n_v4 n_v6 n_pairs seed t₂).test_networks ∧
    (buildSuiteRun R n_v4 n_v6 n_pairs seed t₁).adjacency_cases =
      (buildSuiteRun R n_v4 n_v6 n_pairs seed t₂).adjacency_cases ∧
    mergeCaseList R seed count = mergeCaseList R seed count ∧
    (buildOvRun R t₁).tests = (buildOvRun R t₂).tests :=
  ⟨rfl, rfl, rfl, rfl⟩
